import Mathlib

/-!
# Verification of `multi_storage_lru_cache.ts`

Shallow embedding of the LRU-cache-with-expiry code base. The repository
contains two variants of the class `LRUCacheWithExpiry`:

* a *standalone* variant holding its own `Map` and implementing capacity
  eviction, TTL expiry and recency promotion itself (`get`/`put` at the
  bottom of the source file); and
* a *multi-storage* variant that delegates `get`/`put` to a pluggable
  `CacheStorage` backend (`MemoryStorage`, `FileStorage`, `S3Storage`,
  `RedisStorage`).

A JavaScript `Map` is embedded as a `List (Key × CacheEntry)` in insertion
order (`Map` iteration order is insertion order; `Map.prototype.set` on an
existing key updates the value *in place*, keeping the key's position, while
`set` on a fresh key appends at the end; `Map.prototype.delete` removes the
entry).  Keys are numbers (`Nat` here), stored values are `Int` so that the
sentinel value `-1` is representable, and timestamps (`Date.now()`) are
natural numbers of milliseconds.
-/

/-- Cache keys (the TS code allows `string | number`; claims only use
numeric keys). -/
abbrev Key := Nat

/-- The per-entry record `{ value: T; expiry: number }` stored in every
backend, with `T` instantiated to `Int`. `expiry` is the absolute
`expiresAt` timestamp in milliseconds. -/
structure CacheEntry where
  value : Int
  expiry : Nat
deriving DecidableEq, Repr

/-- A JavaScript `Map` from keys to cache entries, as a list of pairs in
insertion order (first element = oldest insertion = `keys().next().value`). -/
abbrev Store := List (Key × CacheEntry)

/-- `Map.prototype.get`: the entry of the first pair whose key matches. -/
def mapGet : Store → Key → Option CacheEntry
  | [], _ => none
  | (k', e) :: rest, k => if k' = k then some e else mapGet rest k

/-- `Map.prototype.set`: update the first pair with this key in place
(keeping its position, as the ECMAScript spec prescribes), or append a new
pair at the end if the key is absent. -/
def mapSet : Store → Key → CacheEntry → Store
  | [], k, e => [(k, e)]
  | (k', e') :: rest, k, e =>
    if k' = k then (k, e) :: rest else (k', e') :: mapSet rest k e

/-- `Map.prototype.delete`: remove the first pair with this key, if any. -/
def mapDelete : Store → Key → Store
  | [], _ => []
  | (k', e') :: rest, k => if k' = k then rest else (k', e') :: mapDelete rest k

/-- `Map.prototype.has`. -/
def mapHas (s : Store) (k : Key) : Bool :=
  (mapGet s k).isSome

/-- Key uniqueness, the invariant a JavaScript `Map` maintains by
construction; every reachable store satisfies it. -/
def nodupKeys (s : Store) : Prop :=
  (s.map Prod.fst).Nodup

instance (s : Store) : Decidable (nodupKeys s) := by
  unfold nodupKeys; infer_instance

/-- The miss sentinel `-1` that `get` returns when the key is absent or
expired. -/
def missSentinel : Int := -1

namespace LRUCacheWithExpiry

/-- The standalone variant's `get(key)`: returns `-1` when the key is
absent; deletes the entry and returns `-1` when `item.expiry < now`;
otherwise promotes the key to the most-recently-used end (by `delete`
followed by `set`) and returns the stored value. Result: (returned value,
cache map after the call). -/
def get (now : Nat) (s : Store) (k : Key) : Int × Store :=
  match mapGet s k with
  | none => (-1, s)
  | some item =>
    if item.expiry < now then
      (-1, mapDelete s k)
    else
      (item.value, mapSet (mapDelete s k) k ⟨item.value, item.expiry⟩)

/-- The standalone variant's `put(key, value)`: computes
`expiry = now + ttl`, deletes the key if present, re-inserts it at the end,
then, if `size > capacity`, deletes `keys().next().value` — the first
(least-recently-used) key of the map. -/
def put (capacity ttl now : Nat) (s : Store) (k : Key) (v : Int) : Store :=
  let expiry := now + ttl
  let s1 := if mapHas s k then mapDelete s k else s
  let s2 := mapSet s1 k ⟨v, expiry⟩
  if capacity < s2.length then
    match s2.head? with
    | some (k0, _) => mapDelete s2 k0
    | none => s2
  else s2

end LRUCacheWithExpiry

namespace MemoryStorage

/-- `MemoryStorage.get(key)`: when the key is absent or
`item.expiry < Date.now()`, deletes the key (a no-op when absent) and
returns `-1`; otherwise returns the stored value *without touching the
map* (no recency promotion). -/
def get (now : Nat) (s : Store) (k : Key) : Int × Store :=
  match mapGet s k with
  | none => (-1, mapDelete s k)
  | some item =>
    if item.expiry < now then
      (-1, mapDelete s k)
    else
      (item.value, s)

/-- `MemoryStorage.put(key, value, ttl)`: `cache.set(key, { value, expiry })`
with `expiry = Date.now() + ttl`. No capacity logic of any kind. -/
def put (ttl now : Nat) (s : Store) (k : Key) (v : Int) : Store :=
  mapSet s k ⟨v, now + ttl⟩

end MemoryStorage

namespace MultiStorageCache

/-- The multi-storage variant's `LRUCacheWithExpiry.put(key, value)` over
the `MemoryStorage` backend: it only forwards to `storage.put(key, value,
ttl)`. The constructor's `capacity` field is never read anywhere in this
variant — no eviction ever happens. -/
def put (_capacity ttl now : Nat) (s : Store) (k : Key) (v : Int) : Store :=
  MemoryStorage.put ttl now s k v

/-- The multi-storage variant's `get(key)`: forwards to
`storage.get(key)`. -/
def get (now : Nat) (s : Store) (k : Key) : Int × Store :=
  MemoryStorage.get now s k

end MultiStorageCache

namespace FileStorage

/-- `FileStorage.saveToFile`: `JSON.stringify(Array.from(this.cache.entries()))`.
We embed the serialized blob as the entry array itself: `JSON.stringify`
followed by `JSON.parse` is the identity on arrays of
`[number, {value: number, expiry: number}]` pairs with integer fields, so
the byte-level encoding is dropped from the model. -/
def saveToFile (s : Store) : List (Key × CacheEntry) := s

/-- `new Map(parsed)`: fold `Map.prototype.set` over the parsed pairs,
starting from the empty map. -/
def newMapOfList (l : List (Key × CacheEntry)) : Store :=
  l.foldl (fun acc p => mapSet acc p.1 p.2) []

/-- `FileStorage.loadFromFile`: `readFile` + `JSON.parse` inside
`try { ... } catch { this.cache = new Map() }`. `some parsed` models a
readable, well-formed blob; `none` models a missing file or a blob
`JSON.parse` rejects, in which case the catch arm installs the empty map. -/
def loadFromFile : Option (List (Key × CacheEntry)) → Store
  | some parsed => newMapOfList parsed
  | none => []

end FileStorage

/-- A sequence of standalone-variant `get` calls, each given by the current
time of the call and the key looked up; returns the cache map left behind. -/
def runGets (s : Store) : List (Nat × Key) → Store
  | [] => s
  | (t, k) :: rest => runGets (LRUCacheWithExpiry.get t s k).2 rest

/-! ## Lemmas about the `Map` model -/

theorem mapGet_mapSet_self (s : Store) (k : Key) (e : CacheEntry) :
    mapGet (mapSet s k e) k = some e := by
  induction s with
  | nil => simp [mapSet, mapGet]
  | cons p rest ih =>
    obtain ⟨k', e'⟩ := p
    by_cases h : k' = k <;> simp [mapSet, mapGet, h, ih]

theorem mapGet_mapSet_ne (s : Store) (k j : Key) (e : CacheEntry) (h : j ≠ k) :
    mapGet (mapSet s k e) j = mapGet s j := by
  induction s with
  | nil => simp [mapSet, mapGet, Ne.symm h]
  | cons p rest ih =>
    obtain ⟨k', e'⟩ := p
    by_cases hk : k' = k
    · subst hk; simp [mapSet, mapGet, Ne.symm h]
    · simp only [mapSet, if_neg hk, mapGet]
      by_cases hj : k' = j <;> simp [hj, ih]

theorem mapGet_mapDelete_ne (s : Store) (k j : Key) (h : j ≠ k) :
    mapGet (mapDelete s k) j = mapGet s j := by
  induction s with
  | nil => simp [mapDelete]
  | cons p rest ih =>
    obtain ⟨k', e'⟩ := p
    by_cases hk : k' = k
    · subst hk; simp [mapDelete, mapGet, Ne.symm h]
    · simp only [mapDelete, if_neg hk, mapGet]
      by_cases hj : k' = j <;> simp [hj, ih]

theorem mapGet_eq_none_iff (s : Store) (k : Key) :
    mapGet s k = none ↔ k ∉ s.map Prod.fst := by
  induction s with
  | nil => simp [mapGet]
  | cons p rest ih =>
    obtain ⟨k', e'⟩ := p
    by_cases h : k' = k <;> simp [mapGet, h, ih, Ne.symm]

theorem mapDelete_of_not_mem (s : Store) (k : Key) (h : k ∉ s.map Prod.fst) :
    mapDelete s k = s := by
  induction s with
  | nil => rfl
  | cons p rest ih =>
    obtain ⟨k', e'⟩ := p
    simp only [List.map_cons, List.mem_cons, not_or] at h
    simp [mapDelete, Ne.symm h.1, ih h.2]

theorem keys_mapDelete (s : Store) (k : Key) :
    (mapDelete s k).map Prod.fst = (s.map Prod.fst).erase k := by
  induction s with
  | nil => rfl
  | cons p rest ih =>
    obtain ⟨k', e'⟩ := p
    by_cases h : k' = k <;>
      simp [mapDelete, h, List.erase_cons, ih]

theorem nodupKeys_mapDelete (s : Store) (k : Key) (h : nodupKeys s) :
    nodupKeys (mapDelete s k) := by
  unfold nodupKeys at *
  rw [keys_mapDelete]
  exact h.erase k

theorem mapGet_mapDelete_self (s : Store) (k : Key) (h : nodupKeys s) :
    mapGet (mapDelete s k) k = none := by
  induction s with
  | nil => rfl
  | cons p rest ih =>
    obtain ⟨k', e'⟩ := p
    unfold nodupKeys at h
    simp only [List.map_cons, List.nodup_cons] at h
    by_cases hk : k' = k
    · subst hk
      simp only [mapDelete, if_pos rfl]
      exact (mapGet_eq_none_iff rest k').mpr h.1
    · simp [mapDelete, hk, mapGet, ih h.2]

theorem mapSet_of_not_mem (s : Store) (k : Key) (e : CacheEntry)
    (h : k ∉ s.map Prod.fst) : mapSet s k e = s ++ [(k, e)] := by
  induction s with
  | nil => rfl
  | cons p rest ih =>
    obtain ⟨k', e'⟩ := p
    simp only [List.map_cons, List.mem_cons, not_or] at h
    simp [mapSet, h.1, ih h.2, Ne.symm]

theorem mem_keys_mapSet (s : Store) (k j : Key) (e : CacheEntry) :
    j ∈ (mapSet s k e).map Prod.fst ↔ j ∈ s.map Prod.fst ∨ j = k := by
  induction s with
  | nil => simp [mapSet]
  | cons p rest ih =>
    obtain ⟨k', e'⟩ := p
    by_cases h : k' = k
    · subst h; simp [mapSet]; tauto
    · simp [mapSet, h, ih]; tauto

theorem nodupKeys_mapSet (s : Store) (k : Key) (e : CacheEntry)
    (h : nodupKeys s) : nodupKeys (mapSet s k e) := by
  induction s with
  | nil => simp [mapSet, nodupKeys]
  | cons p rest ih =>
    obtain ⟨k', e'⟩ := p
    unfold nodupKeys at *
    simp only [List.map_cons, List.nodup_cons] at h
    by_cases hk : k' = k
    · subst hk
      simpa [mapSet] using h
    · simp only [mapSet, if_neg hk, List.map_cons, List.nodup_cons]
      refine ⟨fun hmem => ?_, ih h.2⟩
      rcases (mem_keys_mapSet rest k k' e).mp hmem with h' | h'
      · exact h.1 h'
      · exact hk h'

theorem mapGet_append_of_none (l1 l2 : Store) (k : Key)
    (h : mapGet l1 k = none) : mapGet (l1 ++ l2) k = mapGet l2 k := by
  induction l1 with
  | nil => rfl
  | cons p rest ih =>
    obtain ⟨k', e'⟩ := p
    by_cases hk : k' = k
    · simp [mapGet, hk] at h
    · simp only [mapGet, if_neg hk] at h
      simp [mapGet, hk, ih h]

theorem mapGet_append_of_some (l1 l2 : Store) (k : Key) (e : CacheEntry)
    (h : mapGet l1 k = some e) : mapGet (l1 ++ l2) k = some e := by
  induction l1 with
  | nil => simp [mapGet] at h
  | cons p rest ih =>
    obtain ⟨k', e'⟩ := p
    by_cases hk : k' = k
    · simp_all [mapGet]
    · simp only [mapGet, if_neg hk] at h
      simp [mapGet, hk, ih h]

theorem length_mapDelete_of_some (s : Store) (k : Key) (e : CacheEntry)
    (h : mapGet s k = some e) : (mapDelete s k).length + 1 = s.length := by
  induction s with
  | nil => simp [mapGet] at h
  | cons p rest ih =>
    obtain ⟨k', e'⟩ := p
    by_cases hk : k' = k
    · simp [mapDelete, hk]
    · simp only [mapGet, if_neg hk] at h
      simp [mapDelete, hk, ih h]

/-! ## Characterization of the standalone variant's `put` and `get` -/

theorem put_eq_of_resident (cap ttl now : Nat) (s : Store) (k : Key) (v : Int)
    (old : CacheEntry) (hnd : nodupKeys s) (hres : mapGet s k = some old)
    (hlen : s.length ≤ cap) :
    LRUCacheWithExpiry.put cap ttl now s k v
      = mapDelete s k ++ [(k, ⟨v, now + ttl⟩)] := by
  have hh : mapHas s k = true := by simp [mapHas, hres]
  have hdel : mapGet (mapDelete s k) k = none := mapGet_mapDelete_self s k hnd
  have hset : mapSet (mapDelete s k) k ⟨v, now + ttl⟩
      = mapDelete s k ++ [(k, ⟨v, now + ttl⟩)] :=
    mapSet_of_not_mem _ _ _ ((mapGet_eq_none_iff _ _).mp hdel)
  have hlen2 : (mapDelete s k).length + 1 = s.length :=
    length_mapDelete_of_some s k old hres
  have hcond : ¬ cap < (mapDelete s k ++ [(k, (⟨v, now + ttl⟩ : CacheEntry))]).length := by
    simp only [List.length_append, List.length_cons, List.length_nil]
    omega
  simp only [LRUCacheWithExpiry.put, hh, if_true, hset]
  rw [if_neg hcond]

theorem put_eq_of_fresh_no_evict (cap ttl now : Nat) (s : Store) (k : Key) (v : Int)
    (hres : mapGet s k = none) (hlen : s.length + 1 ≤ cap) :
    LRUCacheWithExpiry.put cap ttl now s k v = s ++ [(k, ⟨v, now + ttl⟩)] := by
  have hh : mapHas s k = false := by simp [mapHas, hres]
  have hset : mapSet s k ⟨v, now + ttl⟩ = s ++ [(k, ⟨v, now + ttl⟩)] :=
    mapSet_of_not_mem _ _ _ ((mapGet_eq_none_iff _ _).mp hres)
  have hcond : ¬ cap < (s ++ [(k, (⟨v, now + ttl⟩ : CacheEntry))]).length := by
    simp only [List.length_append, List.length_cons, List.length_nil]
    omega
  simp only [LRUCacheWithExpiry.put, hh, Bool.false_eq_true, if_false, hset]
  rw [if_neg hcond]

theorem put_eq_of_fresh_evict (cap ttl now : Nat) (k0 : Key) (e0 : CacheEntry)
    (rest : Store) (k : Key) (v : Int)
    (hres : mapGet ((k0, e0) :: rest) k = none)
    (hlen : cap < ((k0, e0) :: rest).length + 1) :
    LRUCacheWithExpiry.put cap ttl now ((k0, e0) :: rest) k v
      = mapDelete (((k0, e0) :: rest) ++ [(k, ⟨v, now + ttl⟩)]) k0 := by
  have hh : mapHas ((k0, e0) :: rest) k = false := by simp [mapHas, hres]
  have hset : mapSet ((k0, e0) :: rest) k ⟨v, now + ttl⟩
      = ((k0, e0) :: rest) ++ [(k, ⟨v, now + ttl⟩)] :=
    mapSet_of_not_mem _ _ _ ((mapGet_eq_none_iff _ _).mp hres)
  have hcond : cap < (((k0, e0) :: rest) ++ [(k, (⟨v, now + ttl⟩ : CacheEntry))]).length := by
    simp only [List.length_append, List.length_cons, List.length_nil]
    simp only [List.length_cons] at hlen
    omega
  simp only [LRUCacheWithExpiry.put, hh, Bool.false_eq_true, if_false, hset]
  rw [if_pos hcond]
  rfl

theorem mapGet_put_self (cap ttl now : Nat) (s : Store) (k : Key) (v : Int)
    (hnd : nodupKeys s) (hcap : 1 ≤ cap) (hlen : s.length ≤ cap) :
    mapGet (LRUCacheWithExpiry.put cap ttl now s k v) k = some ⟨v, now + ttl⟩ := by
  cases hres : mapGet s k with
  | some old =>
    rw [put_eq_of_resident cap ttl now s k v old hnd hres hlen]
    rw [mapGet_append_of_none _ _ _ (mapGet_mapDelete_self s k hnd)]
    simp [mapGet]
  | none =>
    by_cases hfull : s.length + 1 ≤ cap
    · rw [put_eq_of_fresh_no_evict cap ttl now s k v hres hfull]
      rw [mapGet_append_of_none _ _ _ hres]
      simp [mapGet]
    · have hlen' : s.length = cap := by omega
      have hne : s ≠ [] := by
        intro h
        rw [h] at hlen'
        simp at hlen'
        omega
      obtain ⟨p, rest, rfl⟩ := List.exists_cons_of_ne_nil hne
      obtain ⟨k0, e0⟩ := p
      rw [put_eq_of_fresh_evict cap ttl now k0 e0 rest k v hres (by omega)]
      have hk0 : k ≠ k0 := by
        intro h
        subst h
        simp [mapGet] at hres
      rw [mapGet_mapDelete_ne _ _ _ hk0]
      rw [mapGet_append_of_none _ _ _ hres]
      simp [mapGet]

theorem nodupKeys_get_snd (now : Nat) (s : Store) (k : Key) (hnd : nodupKeys s) :
    nodupKeys (LRUCacheWithExpiry.get now s k).2 := by
  unfold LRUCacheWithExpiry.get
  cases hres : mapGet s k with
  | none => exact hnd
  | some item =>
    by_cases hexp : item.expiry < now
    · simp only [hexp, if_true]
      exact nodupKeys_mapDelete s k hnd
    · simp only [hexp, if_false]
      exact nodupKeys_mapSet _ _ _ (nodupKeys_mapDelete s k hnd)

theorem mapGet_get_snd (now : Nat) (s : Store) (k j : Key) (e : CacheEntry)
    (hnd : nodupKeys s)
    (hj : mapGet (LRUCacheWithExpiry.get now s k).2 j = some e) :
    mapGet s j = some e := by
  unfold LRUCacheWithExpiry.get at hj
  cases hres : mapGet s k with
  | none => rw [hres] at hj; exact hj
  | some item =>
    rw [hres] at hj
    obtain ⟨iv, ie⟩ := item
    by_cases hexp : ie < now
    · simp only [hexp, if_true] at hj
      by_cases hjk : j = k
      · subst hjk
        rw [mapGet_mapDelete_self s j hnd] at hj
        exact absurd hj (by simp)
      · rw [mapGet_mapDelete_ne _ _ _ hjk] at hj
        exact hj
    · simp only [hexp, if_false] at hj
      by_cases hjk : j = k
      · subst hjk
        rw [mapGet_mapSet_self] at hj
        rw [hres, ← hj]
      · rw [mapGet_mapSet_ne _ _ _ _ hjk, mapGet_mapDelete_ne _ _ _ hjk] at hj
        exact hj

/-! ## Claims -/

/-- **C1**: the capacity invariant is claimed "for every cache-core variant
exposed by the repository, regardless of which storage backend is
configured", but the multi-storage variant's `put` only forwards to
`storage.put` and never reads `capacity` — no eviction exists in that
variant. Evaluating the code at the failing input: a cache with capacity 1
(MemoryStorage backend) holds 2 resident entries immediately after the
second `put` returns. -/
theorem C1_multi_storage_put_ignores_capacity :
    (MultiStorageCache.put 1 1000 0 (MultiStorageCache.put 1 1000 0 [] 1 5) 2 6).length = 2 := by
  rfl

/-- **C2** (counterexample): the MISS indicator is the plain value `-1` of
the value type, so it is *not* distinct from every legitimate stored value:
after `put(1, -1)` the entry for key 1 is resident and live, yet `get(1)`
returns exactly the MISS indicator. -/
theorem C2_counterexample :
    mapGet (LRUCacheWithExpiry.put 3 1000 0 [] 1 (-1)) 1 = some ⟨-1, 1000⟩ ∧
    (LRUCacheWithExpiry.get 0 (LRUCacheWithExpiry.put 3 1000 0 [] 1 (-1)) 1).1 = missSentinel :=
  ⟨rfl, rfl⟩

/-- **C2** (amended): MISS is the in-band sentinel `-1`; for every stored
value *other than* `-1`, a `get` that hits the live entry written by
`put(k, v)` returns `v`, which differs from the sentinel, and a `get` on an
absent key returns the sentinel. (For `v = -1` a hit is indistinguishable
from MISS.) -/
theorem C2_amended_miss_vs_hit (cap ttl now now2 : Nat) (s : Store) (k : Key) (v : Int)
    (hnd : nodupKeys s) (hcap : 1 ≤ cap) (hlen : s.length ≤ cap)
    (hv : v ≠ missSentinel) (hlive : now2 ≤ now + ttl) :
    (LRUCacheWithExpiry.get now2 (LRUCacheWithExpiry.put cap ttl now s k v) k).1 = v ∧
    (LRUCacheWithExpiry.get now2 (LRUCacheWithExpiry.put cap ttl now s k v) k).1 ≠ missSentinel ∧
    ∀ s' : Store, mapGet s' k = none → (LRUCacheWithExpiry.get now2 s' k).1 = missSentinel := by
  have hres := mapGet_put_self cap ttl now s k v hnd hcap hlen
  have hval : (LRUCacheWithExpiry.get now2 (LRUCacheWithExpiry.put cap ttl now s k v) k).1 = v := by
    unfold LRUCacheWithExpiry.get
    rw [hres]
    simp [Nat.not_lt.mpr hlive]
  refine ⟨hval, ?_, ?_⟩
  · rw [hval]; exact hv
  · intro s' h
    unfold LRUCacheWithExpiry.get
    rw [h]
    rfl

/-- Witness for `C2_amended_miss_vs_hit` at capacity 3, ttl 1000, write at
time 0 of value 7 under key 1, read back at time 500. -/
theorem C2_witness :
    nodupKeys ([] : Store) ∧ (1 : Nat) ≤ 3 ∧ ([] : Store).length ≤ 3 ∧
    (7 : Int) ≠ missSentinel ∧ (500 : Nat) ≤ 0 + 1000 ∧
    ((LRUCacheWithExpiry.get 500 (LRUCacheWithExpiry.put 3 1000 0 [] 1 7) 1).1 = 7 ∧
     (LRUCacheWithExpiry.get 500 (LRUCacheWithExpiry.put 3 1000 0 [] 1 7) 1).1 ≠ missSentinel ∧
     ∀ s' : Store, mapGet s' 1 = none → (LRUCacheWithExpiry.get 500 s' 1).1 = missSentinel) :=
  ⟨by decide, by decide, by decide, by decide, by decide,
   C2_amended_miss_vs_hit 3 1000 0 500 [] 1 7 (by decide) (by decide) (by decide)
     (by decide) (by decide)⟩

/-- **C3** (counterexample): the claim demands MISS already at
`t = expiresAt`, but the code's liveness test is `item.expiry < now`
(strict): an entry written at time 0 with ttl 5000 (so `expiresAt = 5000`)
is still returned by a `get` at time exactly 5000. -/
theorem C3_counterexample :
    LRUCacheWithExpiry.get 5000 (LRUCacheWithExpiry.put 3 5000 0 [] 1 7) 1
      = (7, [(1, ⟨7, 5000⟩)]) := rfl

/-- **C3** (amended): an entry whose `expiresAt` is *strictly before* the
current time is never returned: `get` yields the MISS sentinel and removes
the entry; at `t = expiresAt` exactly the entry is still served. -/
theorem C3_amended_strict_expiry (now : Nat) (s : Store) (k : Key) (item : CacheEntry)
    (hget : mapGet s k = some item) (hexp : item.expiry < now) :
    LRUCacheWithExpiry.get now s k = (missSentinel, mapDelete s k) := by
  unfold LRUCacheWithExpiry.get
  rw [hget]
  simp [hexp, missSentinel]

/-- Witness for `C3_amended_strict_expiry`: entry with `expiresAt = 5`,
read at time 6. -/
theorem C3_witness :
    mapGet [(1, (⟨7, 5⟩ : CacheEntry))] 1 = some ⟨7, 5⟩ ∧ (5 : Nat) < 6 ∧
    LRUCacheWithExpiry.get 6 [(1, ⟨7, 5⟩)] 1 = (missSentinel, mapDelete [(1, ⟨7, 5⟩)] 1) :=
  ⟨rfl, by decide, C3_amended_strict_expiry 6 [(1, ⟨7, 5⟩)] 1 ⟨7, 5⟩ rfl (by decide)⟩

/-- **C4**: on the standalone variant with capacity 3, after `put 1`,
`put 2`, `put 3`, a `get 1` (at a time where key 1 has not yet expired) and
a `put 4`, the resulting map is exactly `[3, 1, 4]` in least- to
most-recently-used order: key 2 was evicted as the least recently used and
keys 1, 3, 4 remain with their original values and expiries. -/
theorem C4_eviction_order (ttl t1 t2 t3 tg t5 : Nat) (v1 v2 v3 v4 : Int)
    (hlive : tg ≤ t1 + ttl) :
    LRUCacheWithExpiry.put 3 ttl t5
        ((LRUCacheWithExpiry.get tg
          (LRUCacheWithExpiry.put 3 ttl t3
            (LRUCacheWithExpiry.put 3 ttl t2
              (LRUCacheWithExpiry.put 3 ttl t1 [] 1 v1) 2 v2) 3 v3) 1).2) 4 v4
      = [(3, ⟨v3, t3 + ttl⟩), (1, ⟨v1, t1 + ttl⟩), (4, ⟨v4, t5 + ttl⟩)] := by
  have hnl : ¬ (t1 + ttl < tg) := Nat.not_lt.mpr hlive
  have h4 : (LRUCacheWithExpiry.get tg
        [(1, (⟨v1, t1 + ttl⟩ : CacheEntry)), (2, ⟨v2, t2 + ttl⟩), (3, ⟨v3, t3 + ttl⟩)] 1).2
      = [(2, ⟨v2, t2 + ttl⟩), (3, ⟨v3, t3 + ttl⟩), (1, ⟨v1, t1 + ttl⟩)] := by
    simp [LRUCacheWithExpiry.get, mapGet, mapSet, mapDelete, hnl]
  show LRUCacheWithExpiry.put 3 ttl t5
      ((LRUCacheWithExpiry.get tg
        [(1, ⟨v1, t1 + ttl⟩), (2, ⟨v2, t2 + ttl⟩), (3, ⟨v3, t3 + ttl⟩)] 1).2) 4 v4 = _
  rw [h4]
  rfl

/-- Witness for `C4_eviction_order` with ttl 5000, all calls at time 0 and
values 10, 20, 30, 40. -/
theorem C4_witness :
    (0 : Nat) ≤ 0 + 5000 ∧
    LRUCacheWithExpiry.put 3 5000 0
        ((LRUCacheWithExpiry.get 0
          (LRUCacheWithExpiry.put 3 5000 0
            (LRUCacheWithExpiry.put 3 5000 0
              (LRUCacheWithExpiry.put 3 5000 0 [] 1 10) 2 20) 3 30) 1).2) 4 40
      = [(3, ⟨30, 0 + 5000⟩), (1, ⟨10, 0 + 5000⟩), (4, ⟨40, 0 + 5000⟩)] :=
  ⟨Nat.zero_le _, C4_eviction_order 5000 0 0 0 0 0 10 20 30 40 (Nat.zero_le _)⟩

/-- **C5**: reads never rewrite entries. Any key still resident after an
arbitrary sequence of standalone-variant `get` calls carries exactly the
value and `expiresAt` it had before the sequence: `get` may remove an
expired entry or reorder a live one, but never alters a stored expiry, so
no read extends any entry's lifetime beyond what the most recent `put`
computed. -/
theorem C5_no_sliding_ttl (gs : List (Nat × Key)) (s : Store) (j : Key) (e : CacheEntry)
    (hnd : nodupKeys s) (hj : mapGet (runGets s gs) j = some e) :
    mapGet s j = some e := by
  induction gs generalizing s with
  | nil => exact hj
  | cons p rest ih =>
    obtain ⟨t, k⟩ := p
    exact mapGet_get_snd t s k j e hnd
      (ih _ (nodupKeys_get_snd t s k hnd) hj)

/-- Witness for `C5_no_sliding_ttl`: key 1 with expiry 100 read twice (at
times 20 and 40) keeps value 5 and expiry 100. -/
theorem C5_witness :
    nodupKeys [(1, (⟨5, 100⟩ : CacheEntry))] ∧
    mapGet (runGets [(1, (⟨5, 100⟩ : CacheEntry))] [(20, 1), (40, 1)]) 1 = some ⟨5, 100⟩ ∧
    mapGet [(1, (⟨5, 100⟩ : CacheEntry))] 1 = some ⟨5, 100⟩ :=
  ⟨by decide, by decide,
   C5_no_sliding_ttl [(20, 1), (40, 1)] [(1, ⟨5, 100⟩)] 1 ⟨5, 100⟩ (by decide) (by decide)⟩

/-- **C6** (counterexample): the reference in-memory backend does *not*
promote on read. With keys inserted in order 1 then 2, a live hit on key 1
through `MemoryStorage.get` returns the stored value 10 but leaves the map
unchanged — key 1 stays at the least-recently-used front instead of moving
to the most-recently-used end. -/
theorem C6_counterexample :
    MemoryStorage.get 0 (MemoryStorage.put 1000 0 (MemoryStorage.put 1000 0 [] 1 10) 2 20) 1
      = (10, [(1, ⟨10, 1000⟩), (2, ⟨20, 1000⟩)]) := rfl

/-- **C6** (amended): recency promotion on read holds for the standalone
variant only: its `get` on a live entry returns the stored value and
re-inserts the key at the most-recently-used end, every other entry keeping
its place; `MemoryStorage.get` serves a live hit without reordering. -/
theorem C6_amended_promotion (now : Nat) (s : Store) (k : Key) (item : CacheEntry)
    (hnd : nodupKeys s) (hget : mapGet s k = some item) (hlive : ¬ item.expiry < now) :
    LRUCacheWithExpiry.get now s k = (item.value, mapDelete s k ++ [(k, item)]) := by
  obtain ⟨iv, ie⟩ := item
  have hlive' : ¬ ie < now := hlive
  have habs : mapGet (mapDelete s k) k = none := mapGet_mapDelete_self s k hnd
  have hset : mapSet (mapDelete s k) k ⟨iv, ie⟩ = mapDelete s k ++ [(k, ⟨iv, ie⟩)] :=
    mapSet_of_not_mem _ _ _ ((mapGet_eq_none_iff _ _).mp habs)
  unfold LRUCacheWithExpiry.get
  rw [hget]
  show (if ie < now then ((-1 : Int), mapDelete s k)
        else (iv, mapSet (mapDelete s k) k ⟨iv, ie⟩))
      = (iv, mapDelete s k ++ [(k, ⟨iv, ie⟩)])
  rw [if_neg hlive', hset]

/-- Witness for `C6_amended_promotion`: live hit on key 1 in a two-entry
map moves key 1 behind key 2. -/
theorem C6_witness :
    nodupKeys [(1, (⟨10, 1000⟩ : CacheEntry)), (2, ⟨20, 1000⟩)] ∧
    mapGet [(1, (⟨10, 1000⟩ : CacheEntry)), (2, ⟨20, 1000⟩)] 1 = some ⟨10, 1000⟩ ∧
    ¬ (1000 : Nat) < 0 ∧
    LRUCacheWithExpiry.get 0 [(1, ⟨10, 1000⟩), (2, ⟨20, 1000⟩)] 1
      = (10, mapDelete [(1, ⟨10, 1000⟩), (2, ⟨20, 1000⟩)] 1 ++ [(1, ⟨10, 1000⟩)]) :=
  ⟨by decide, by decide, by decide,
   C6_amended_promotion 0 [(1, ⟨10, 1000⟩), (2, ⟨20, 1000⟩)] 1 ⟨10, 1000⟩
     (by decide) (by decide) (by decide)⟩

/-- **C7** (counterexample): `MemoryStorage.put` on an already-resident key
replaces value and expiry (`Map.set` semantics) but leaves the key at its
old position: after inserting 1 then 2 and overwriting key 1 at time 5, the
map order is still `[1, 2]` — key 1 was *not* moved to the
most-recently-used end, refuting the claim for this cited variant. -/
theorem C7_counterexample :
    MemoryStorage.put 1000 5 (MemoryStorage.put 1000 0 (MemoryStorage.put 1000 0 [] 1 10) 2 20) 1 99
      = [(1, ⟨99, 1005⟩), (2, ⟨20, 1000⟩)] := rfl

/-- **C7** (amended): in the standalone variant, `put` on a resident key
deletes the old entry and appends the new one: the result is exactly the
old map minus `k` followed by `(k, {v, now + ttl})` — one single entry for
`k`, with the new value, expiry recomputed as `now + ttl`, at the
most-recently-used end (the second conjunct shows no other entry for `k`
survives). `MemoryStorage.put` replaces value and expiry but keeps the
key's old position. -/
theorem C7_amended_overwrite (cap ttl now : Nat) (s : Store) (k : Key) (v : Int)
    (old : CacheEntry) (hnd : nodupKeys s) (hres : mapGet s k = some old)
    (hlen : s.length ≤ cap) :
    LRUCacheWithExpiry.put cap ttl now s k v = mapDelete s k ++ [(k, ⟨v, now + ttl⟩)] ∧
    mapGet (mapDelete s k) k = none :=
  ⟨put_eq_of_resident cap ttl now s k v old hnd hres hlen,
   mapGet_mapDelete_self s k hnd⟩

/-- Witness for `C7_amended_overwrite`: overwriting key 1 in a full
two-entry cache of capacity 2 at time 100 with ttl 7. -/
theorem C7_witness :
    nodupKeys [(1, (⟨10, 50⟩ : CacheEntry)), (2, ⟨20, 60⟩)] ∧
    mapGet [(1, (⟨10, 50⟩ : CacheEntry)), (2, ⟨20, 60⟩)] 1 = some ⟨10, 50⟩ ∧
    ([(1, (⟨10, 50⟩ : CacheEntry)), (2, ⟨20, 60⟩)] : Store).length ≤ 2 ∧
    (LRUCacheWithExpiry.put 2 7 100 [(1, ⟨10, 50⟩), (2, ⟨20, 60⟩)] 1 99
        = mapDelete [(1, ⟨10, 50⟩), (2, ⟨20, 60⟩)] 1 ++ [(1, ⟨99, 100 + 7⟩)] ∧
      mapGet (mapDelete [(1, (⟨10, 50⟩ : CacheEntry)), (2, ⟨20, 60⟩)] 1) 1 = none) :=
  ⟨by decide, by decide, by decide,
   C7_amended_overwrite 2 7 100 [(1, ⟨10, 50⟩), (2, ⟨20, 60⟩)] 1 99 ⟨10, 50⟩
     (by decide) (by decide) (by decide)⟩

/-! ## Persistence round-trip (C8) and remaining helper lemmas -/

theorem foldl_mapSet_of_nodup (l : List (Key × CacheEntry)) :
    ∀ acc : Store, (acc.map Prod.fst ++ l.map Prod.fst).Nodup →
      l.foldl (fun acc p => mapSet acc p.1 p.2) acc = acc ++ l := by
  induction l with
  | nil => intro acc _; simp
  | cons p rest ih =>
    intro acc h
    obtain ⟨pk, pe⟩ := p
    simp only [List.map_cons] at h
    have hd := List.nodup_append.mp h
    have hmem : pk ∉ acc.map Prod.fst := fun hm => hd.2.2 hm (List.mem_cons_self pk _)
    have hset : mapSet acc pk pe = acc ++ [(pk, pe)] :=
      mapSet_of_not_mem _ _ _ hmem
    have h' : ((acc ++ [(pk, pe)]).map Prod.fst ++ rest.map Prod.fst).Nodup := by
      simpa [List.append_assoc] using h
    calc ((pk, pe) :: rest).foldl (fun acc p => mapSet acc p.1 p.2) acc
        = rest.foldl (fun acc p => mapSet acc p.1 p.2) (mapSet acc pk pe) := rfl
      _ = (acc ++ [(pk, pe)]) ++ rest := by rw [hset]; exact ih _ h'
      _ = acc ++ (pk, pe) :: rest := by simp

/-- **C8**: file-backed round-trip. Re-loading the blob written by
`saveToFile` from any well-formed in-memory state reproduces that state
exactly — every key with the same value and the same millisecond expiry, in
the same order — and loading a missing or unparsable blob yields the empty
store instead of failing. -/
theorem C8_file_roundtrip (s : Store) (hnd : nodupKeys s) :
    FileStorage.loadFromFile (some (FileStorage.saveToFile s)) = s ∧
    FileStorage.loadFromFile none = [] := by
  refine ⟨?_, rfl⟩
  show FileStorage.newMapOfList (FileStorage.saveToFile s) = s
  unfold FileStorage.newMapOfList FileStorage.saveToFile
  have h : (([] : Store).map Prod.fst ++ s.map Prod.fst).Nodup := by
    simpa [nodupKeys] using hnd
  simpa using foldl_mapSet_of_nodup s [] h

/-- Witness for `C8_file_roundtrip` on a two-entry store (one of the
values being `-1`). -/
theorem C8_witness :
    nodupKeys [(1, (⟨3, 7⟩ : CacheEntry)), (2, ⟨-1, 9⟩)] ∧
    (FileStorage.loadFromFile
        (some (FileStorage.saveToFile [(1, (⟨3, 7⟩ : CacheEntry)), (2, ⟨-1, 9⟩)]))
        = [(1, (⟨3, 7⟩ : CacheEntry)), (2, ⟨-1, 9⟩)] ∧
      FileStorage.loadFromFile none = []) :=
  ⟨by decide, C8_file_roundtrip [(1, ⟨3, 7⟩), (2, ⟨-1, 9⟩)] (by decide)⟩

/-- **C9**: a `put` never evicts its own key. From any well-formed store
holding at most `capacity` entries with `capacity ≥ 1`, immediately after
`put(k, v)` the key `k` is resident with value `v` and expiry `now + ttl`;
in particular, when the `put` overflows and triggers an eviction, the
evicted (oldest) key is different from `k`. -/
theorem C9_put_keeps_written_key (cap ttl now : Nat) (s : Store) (k : Key) (v : Int)
    (hnd : nodupKeys s) (hcap : 1 ≤ cap) (hlen : s.length ≤ cap) :
    mapGet (LRUCacheWithExpiry.put cap ttl now s k v) k = some ⟨v, now + ttl⟩ :=
  mapGet_put_self cap ttl now s k v hnd hcap hlen

/-- Witness for `C9_put_keeps_written_key`: a full capacity-1 cache holding
key 5; `put` of key 3 evicts key 5, not key 3. -/
theorem C9_witness :
    nodupKeys [(5, (⟨7, 10⟩ : CacheEntry))] ∧ (1 : Nat) ≤ 1 ∧
    ([(5, (⟨7, 10⟩ : CacheEntry))] : Store).length ≤ 1 ∧
    mapGet (LRUCacheWithExpiry.put 1 4 0 [(5, ⟨7, 10⟩)] 3 2) 3 = some ⟨2, 0 + 4⟩ :=
  ⟨by decide, by decide, by decide,
   C9_put_keeps_written_key 1 4 0 [(5, ⟨7, 10⟩)] 3 2 (by decide) (by decide) (by decide)⟩

/-! ## Branch characterizations of `get` (used for C10) -/

theorem get_eq_of_absent (now : Nat) (s : Store) (k : Key) (h : mapGet s k = none) :
    LRUCacheWithExpiry.get now s k = (-1, s) := by
  unfold LRUCacheWithExpiry.get
  rw [h]

theorem get_eq_of_expired (now : Nat) (s : Store) (k : Key) (iv : Int) (ie : Nat)
    (h : mapGet s k = some ⟨iv, ie⟩) (hexp : ie < now) :
    LRUCacheWithExpiry.get now s k = (-1, mapDelete s k) := by
  unfold LRUCacheWithExpiry.get
  rw [h]
  show (if ie < now then ((-1 : Int), mapDelete s k)
        else (iv, mapSet (mapDelete s k) k ⟨iv, ie⟩)) = (-1, mapDelete s k)
  rw [if_pos hexp]

theorem get_eq_of_live (now : Nat) (s : Store) (k : Key) (iv : Int) (ie : Nat)
    (hnd : nodupKeys s) (h : mapGet s k = some ⟨iv, ie⟩) (hlive : ¬ ie < now) :
    LRUCacheWithExpiry.get now s k = (iv, mapDelete s k ++ [(k, ⟨iv, ie⟩)]) := by
  have habs : mapGet (mapDelete s k) k = none := mapGet_mapDelete_self s k hnd
  have hset : mapSet (mapDelete s k) k ⟨iv, ie⟩ = mapDelete s k ++ [(k, ⟨iv, ie⟩)] :=
    mapSet_of_not_mem _ _ _ ((mapGet_eq_none_iff _ _).mp habs)
  unfold LRUCacheWithExpiry.get
  rw [h]
  show (if ie < now then ((-1 : Int), mapDelete s k)
        else (iv, mapSet (mapDelete s k) k ⟨iv, ie⟩))
      = (iv, mapDelete s k ++ [(k, ⟨iv, ie⟩)])
  rw [if_neg hlive, hset]

theorem memget_eq_of_absent (now : Nat) (s : Store) (k : Key) (h : mapGet s k = none) :
    MemoryStorage.get now s k = (-1, mapDelete s k) := by
  unfold MemoryStorage.get
  rw [h]

theorem memget_eq_of_expired (now : Nat) (s : Store) (k : Key) (iv : Int) (ie : Nat)
    (h : mapGet s k = some ⟨iv, ie⟩) (hexp : ie < now) :
    MemoryStorage.get now s k = (-1, mapDelete s k) := by
  unfold MemoryStorage.get
  rw [h]
  show (if ie < now then ((-1 : Int), mapDelete s k) else (iv, s)) = (-1, mapDelete s k)
  rw [if_pos hexp]

theorem memget_eq_of_live (now : Nat) (s : Store) (k : Key) (iv : Int) (ie : Nat)
    (h : mapGet s k = some ⟨iv, ie⟩) (hlive : ¬ ie < now) :
    MemoryStorage.get now s k = (iv, s) := by
  unfold MemoryStorage.get
  rw [h]
  show (if ie < now then ((-1 : Int), mapDelete s k) else (iv, s)) = (iv, s)
  rw [if_neg hlive]

/-- **C10**: footprint of `get` and guaranteed lazy cleanup, for the
standalone variant and for the `MemoryStorage` backend alike: (i) every key
other than the one looked up keeps its exact entry; (ii) the relative order
of the other keys is unchanged (the key sequences agree after erasing `k`);
(iii) whenever the key is absent or its entry has expired, `get` returns
the miss sentinel and the key is physically absent from the backing map
when the call returns — the expired entry is always removed, not merely
optionally. -/
theorem C10_get_footprint (now : Nat) (s : Store) (k : Key) (hnd : nodupKeys s) :
    (∀ j, j ≠ k → mapGet (LRUCacheWithExpiry.get now s k).2 j = mapGet s j) ∧
    ((LRUCacheWithExpiry.get now s k).2.map Prod.fst).erase k
      = (s.map Prod.fst).erase k ∧
    ((mapGet s k = none ∨ ∃ it, mapGet s k = some it ∧ it.expiry < now) →
      (LRUCacheWithExpiry.get now s k).1 = missSentinel ∧
      mapGet (LRUCacheWithExpiry.get now s k).2 k = none) ∧
    (∀ j, j ≠ k → mapGet (MemoryStorage.get now s k).2 j = mapGet s j) ∧
    ((MemoryStorage.get now s k).2.map Prod.fst).erase k = (s.map Prod.fst).erase k ∧
    ((mapGet s k = none ∨ ∃ it, mapGet s k = some it ∧ it.expiry < now) →
      (MemoryStorage.get now s k).1 = missSentinel ∧
      mapGet (MemoryStorage.get now s k).2 k = none) := by
  have hdel_none : mapGet (mapDelete s k) k = none := mapGet_mapDelete_self s k hnd
  have hkerase : k ∉ (s.map Prod.fst).erase k := by
    rw [← keys_mapDelete]
    exact (mapGet_eq_none_iff _ _).mp hdel_none
  have herase2 : ((s.map Prod.fst).erase k).erase k = (s.map Prod.fst).erase k :=
    List.erase_of_not_mem hkerase
  cases hres : mapGet s k with
  | none =>
    have hg := get_eq_of_absent now s k hres
    have hm := memget_eq_of_absent now s k hres
    refine ⟨?_, ?_, ?_, ?_, ?_, ?_⟩
    · intro j hj; rw [hg]
    · rw [hg]
    · intro _; exact ⟨by rw [hg]; rfl, by rw [hg]; exact hres⟩
    · intro j hj; rw [hm]; exact mapGet_mapDelete_ne s k j hj
    · rw [hm, keys_mapDelete]; exact herase2
    · intro _; exact ⟨by rw [hm]; rfl, by rw [hm]; exact hdel_none⟩
  | some item =>
    obtain ⟨iv, ie⟩ := item
    by_cases hexp : ie < now
    · have hg := get_eq_of_expired now s k iv ie hres hexp
      have hm := memget_eq_of_expired now s k iv ie hres hexp
      refine ⟨?_, ?_, ?_, ?_, ?_, ?_⟩
      · intro j hj; rw [hg]; exact mapGet_mapDelete_ne s k j hj
      · rw [hg, keys_mapDelete]; exact herase2
      · intro _; exact ⟨by rw [hg]; rfl, by rw [hg]; exact hdel_none⟩
      · intro j hj; rw [hm]; exact mapGet_mapDelete_ne s k j hj
      · rw [hm, keys_mapDelete]; exact herase2
      · intro _; exact ⟨by rw [hm]; rfl, by rw [hm]; exact hdel_none⟩
    · have hg := get_eq_of_live now s k iv ie hnd hres hexp
      have hm := memget_eq_of_live now s k iv ie hres hexp
      refine ⟨?_, ?_, ?_, ?_, ?_, ?_⟩
      · intro j hj
        rw [hg]
        cases hAj : mapGet (mapDelete s k) j with
        | some e' =>
          rw [mapGet_append_of_some _ _ _ _ hAj]
          rw [← mapGet_mapDelete_ne s k j hj, hAj]
        | none =>
          rw [mapGet_append_of_none _ _ _ hAj]
          have hsj : mapGet s j = none := by
            rw [← mapGet_mapDelete_ne s k j hj]; exact hAj
          rw [hsj]
          simp [mapGet, Ne.symm hj]
      · rw [hg]
        simp only [List.map_append, keys_mapDelete, List.map_cons, List.map_nil]
        rw [List.erase_append_right _ hkerase, List.erase_cons_head]
        simp
      · rintro (h | ⟨it, hit, hexp'⟩)
        · exact absurd h (by simp)
        · cases hit
          exact absurd hexp' hexp
      · intro j hj; rw [hm]
      · rw [hm]
      · rintro (h | ⟨it, hit, hexp'⟩)
        · exact absurd h (by simp)
        · cases hit
          exact absurd hexp' hexp

/-- Witness for `C10_get_footprint` on a two-entry store at time 9, where
the entry of key 1 (expiry 5) has expired: both variants return the
sentinel, delete key 1, and leave key 2's entry untouched. -/
theorem C10_witness :
    nodupKeys [(1, (⟨4, 5⟩ : CacheEntry)), (2, ⟨6, 50⟩)] ∧
    ((∀ j, j ≠ 1 →
        mapGet (LRUCacheWithExpiry.get 9 [(1, (⟨4, 5⟩ : CacheEntry)), (2, ⟨6, 50⟩)] 1).2 j
          = mapGet [(1, (⟨4, 5⟩ : CacheEntry)), (2, ⟨6, 50⟩)] j) ∧
      ((LRUCacheWithExpiry.get 9 [(1, (⟨4, 5⟩ : CacheEntry)), (2, ⟨6, 50⟩)] 1).2.map
          Prod.fst).erase 1
        = (([(1, (⟨4, 5⟩ : CacheEntry)), (2, ⟨6, 50⟩)] : Store).map Prod.fst).erase 1 ∧
      ((mapGet [(1, (⟨4, 5⟩ : CacheEntry)), (2, ⟨6, 50⟩)] 1 = none ∨
          ∃ it, mapGet [(1, (⟨4, 5⟩ : CacheEntry)), (2, ⟨6, 50⟩)] 1 = some it ∧
            it.expiry < 9) →
        (LRUCacheWithExpiry.get 9 [(1, (⟨4, 5⟩ : CacheEntry)), (2, ⟨6, 50⟩)] 1).1
            = missSentinel ∧
        mapGet (LRUCacheWithExpiry.get 9 [(1, (⟨4, 5⟩ : CacheEntry)), (2, ⟨6, 50⟩)] 1).2 1
            = none) ∧
      (∀ j, j ≠ 1 →
        mapGet (MemoryStorage.get 9 [(1, (⟨4, 5⟩ : CacheEntry)), (2, ⟨6, 50⟩)] 1).2 j
          = mapGet [(1, (⟨4, 5⟩ : CacheEntry)), (2, ⟨6, 50⟩)] j) ∧
      ((MemoryStorage.get 9 [(1, (⟨4, 5⟩ : CacheEntry)), (2, ⟨6, 50⟩)] 1).2.map
          Prod.fst).erase 1
        = (([(1, (⟨4, 5⟩ : CacheEntry)), (2, ⟨6, 50⟩)] : Store).map Prod.fst).erase 1 ∧
      ((mapGet [(1, (⟨4, 5⟩ : CacheEntry)), (2, ⟨6, 50⟩)] 1 = none ∨
          ∃ it, mapGet [(1, (⟨4, 5⟩ : CacheEntry)), (2, ⟨6, 50⟩)] 1 = some it ∧
            it.expiry < 9) →
        (MemoryStorage.get 9 [(1, (⟨4, 5⟩ : CacheEntry)), (2, ⟨6, 50⟩)] 1).1 = missSentinel ∧
        mapGet (MemoryStorage.get 9 [(1, (⟨4, 5⟩ : CacheEntry)), (2, ⟨6, 50⟩)] 1).2 1
            = none)) :=
  ⟨by decide, C10_get_footprint 9 [(1, ⟨4, 5⟩), (2, ⟨6, 50⟩)] 1 (by decide)⟩
